import Mathlib

/-!
Verification development for the XAImusic data-fusion and interaction-graph
pipeline.  The repository contains two near-identical copies of the pipeline:
`src/pipeline.py` (module-level functions) and `src/app.py` (lines 1283-1588).
Shared stages that are textually identical in both copies are embedded once at
top level; stages whose two copies diverge (`preprocess_data`,
`adaptive_recommendations`, `generate_explanations`) are embedded twice, in the
namespaces `Pipeline` and `App`.

Modelling conventions:
* timestamps are integer seconds (`Int`); pandas `Timedelta("1min")` is 60
  seconds and the session threshold of 5 minutes is 300 seconds;
* Python floats are embedded as rationals (`ℚ`);
* a missing value (`NaN`) in a DataFrame cell is `Option.none`; `dropna`
  filters the rows in which a modelled, present column holds `none`;
* randomness (`random.choice`, `random.randint`) is abstracted by oracle
  functions supplied as parameters; theorems that need the defining property
  of `random.choice` assume that the oracle returns a member of its argument;
* file input is abstracted: the CSV source is either `none`
  (absent/unreadable, the `except` path of `load_spotify_track_metadata`)
  or `some df`;
* the printing side effects (`print`, `persist_time_series_data`) and the
  matplotlib visualisation module are not modelled: they do not affect any
  returned value.
-/

/-- An interaction row with no missing values, as produced by
`simulate_user_interactions` and consumed after `dropna`:
columns `user_id`, `track_id`, `action`, `timestamp`. -/
structure Interaction where
  user_id : Int
  track_id : Int
  action : String
  timestamp : Int
deriving DecidableEq, Repr

/-- A raw interaction row; a field is `none` when the cell is missing (NaN). -/
structure RawInteraction where
  user_id : Option Int
  track_id : Option Int
  action : Option String
  timestamp : Option Int
deriving DecidableEq, Repr

/-- A contextual-metadata row with no missing values, as produced by
`simulate_contextual_data`: columns `user_id`, `timestamp`, `mood`, `device`,
`location`. -/
structure ContextRecord where
  user_id : Int
  timestamp : Int
  mood : ℚ
  device : String
  location : String
deriving DecidableEq, Repr

/-- A raw contextual row; a field is `none` when the cell is missing (NaN). -/
structure RawContext where
  user_id : Option Int
  timestamp : Option Int
  mood : Option ℚ
  device : Option String
  location : Option String
deriving DecidableEq, Repr

/-- One row of the track-metadata DataFrame, restricted to the three columns
the pipeline reads (`track_id`, `artists`, `track_name`).  A field is `none`
when that cell is missing; when the whole column is absent from the frame the
field values are irrelevant (see `TracksDf`). -/
structure TrackRow where
  tid : Option Int
  artists : Option String
  tname : Option String
deriving DecidableEq, Repr

/-- The track-metadata DataFrame: per-column presence flags (a pandas frame
either has a column for all rows or for none) plus the rows.  Only the three
columns used by the pipeline are modelled. -/
structure TracksDf where
  hasId : Bool
  hasArtists : Bool
  hasName : Bool
  rows : List TrackRow
deriving DecidableEq, Repr

/-- The empty DataFrame `pd.DataFrame()` returned by
`load_spotify_track_metadata` when the CSV is absent or unreadable. -/
def emptyTracksDf : TracksDf := ⟨false, false, false, []⟩

/-- Decidable equality for `Except` results, used to evaluate the embedded
fallible functions on concrete inputs. -/
instance {e a : Type} [DecidableEq e] [DecidableEq a] : DecidableEq (Except e a) := fun x y =>
  match x, y with
  | .ok v, .ok w =>
    if h : v = w then .isTrue (congrArg _ h)
    else .isFalse (fun c => h (Except.ok.inj c))
  | .error v, .error w =>
    if h : v = w then .isTrue (congrArg _ h)
    else .isFalse (fun c => h (Except.error.inj c))
  | .ok _, .error _ => .isFalse (fun c => Except.noConfusion c)
  | .error _, .ok _ => .isFalse (fun c => Except.noConfusion c)

/-- The dictionary returned by `ingest_data`:
`{'interactions': ..., 'tracks': ..., 'context': ...}`. -/
structure RawData where
  interactions : List RawInteraction
  tracks : TracksDf
  context : List RawContext
deriving DecidableEq, Repr

/-- The integer list `list(range(1, n+1))`. -/
def intRange1 (n : Nat) : List Int :=
  (List.range n).map (fun k => ((k + 1 : Nat) : Int))

/-- Oracles standing for the `random` calls of the ingestion module, one per
call site, indexed by the loop iteration. -/
structure Rng where
  pickUser : Nat → List Int → Int
  pickTrack : Nat → List Int → Int
  pickAction : Nat → List String → String
  interactionDelay : Nat → Nat
  ctxUser : Nat → Int
  ctxDelay : Nat → Nat
  mood : Nat → ℚ
  pickDevice : Nat → List String → String
  pickLocation : Nat → List String → String

/-- Embedding of `load_spotify_track_metadata` (src/pipeline.py:15-45,
src/app.py:1283-1302): reading the CSV either succeeds (`some df`) or the
`except` branch returns the empty DataFrame. -/
def load_spotify_track_metadata (src : Option TracksDf) : TracksDf :=
  src.getD emptyTracksDf

/-- Embedding of `simulate_user_interactions` (src/pipeline.py:47-76,
src/app.py:1304-1328).  `track_ids = None` falls back to `range(1, 101)`;
each iteration draws a user from `range(1, 11)`, a track from `track_ids`,
an action from the four action strings, and a timestamp in the trailing
24-hour window before `now`. -/
def simulate_user_interactions (rng : Rng) (now : Int) (num_entries : Nat)
    (track_ids : Option (List Int)) : List RawInteraction :=
  let user_ids := intRange1 10
  let tids := track_ids.getD (intRange1 100)
  (List.range num_entries).map (fun k =>
    { user_id := some (rng.pickUser k user_ids)
      track_id := some (rng.pickTrack k tids)
      action := some (rng.pickAction k ["play", "skip", "like", "playlist_add"])
      timestamp := some (now - (rng.interactionDelay k : Int)) })

/-- Embedding of `simulate_contextual_data` (src/pipeline.py:78-103,
src/app.py:1330-1349). -/
def simulate_contextual_data (rng : Rng) (now : Int) (num_entries : Nat) :
    List RawContext :=
  (List.range num_entries).map (fun k =>
    { user_id := some (rng.ctxUser k)
      timestamp := some (now - (rng.ctxDelay k : Int))
      mood := some (rng.mood k)
      device := some (rng.pickDevice k ["mobile", "desktop"])
      location := some (rng.pickLocation k ["CityA", "CityB", "CityC"]) })

/-- Embedding of `ingest_data` (src/pipeline.py:112-136, src/app.py:1358-1382).
The track pool comes from the metadata's `track_id` column when the loaded
frame is non-empty and has that column, and otherwise falls back to
`range(1, 101)`.  The `persist_time_series_data` side effect is not modelled.
`tolist()` of the `track_id` column is modelled by `filterMap`; NaN entries in
a present `track_id` column are not modelled. -/
def ingest_data (rng : Rng) (now : Int) (src : Option TracksDf)
    (num_interactions : Nat) : RawData :=
  let track_metadata := load_spotify_track_metadata src
  let track_ids :=
    if !track_metadata.rows.isEmpty && track_metadata.hasId then
      track_metadata.rows.filterMap (·.tid)
    else intRange1 100
  { interactions := simulate_user_interactions rng now num_interactions (some track_ids)
    tracks := track_metadata
    context := simulate_contextual_data rng now num_interactions }

/-- The track ids that occur in a track-metadata frame (empty when the frame
has no `track_id` column). -/
def trackIdsOf (df : TracksDf) : List Int :=
  if df.hasId then df.rows.filterMap (·.tid) else []

/-- Embedding of `raw_data['interactions'].dropna()`: keep the rows in which
every column holds a value. -/
def dropnaInteractions (l : List RawInteraction) : List Interaction :=
  l.filterMap (fun r =>
    match r.user_id, r.track_id, r.action, r.timestamp with
    | some u, some t, some a, some ts => some ⟨u, t, a, ts⟩
    | _, _, _, _ => none)

/-- Embedding of `raw_data['context'].dropna()`. -/
def dropnaContext (l : List RawContext) : List ContextRecord :=
  l.filterMap (fun r =>
    match r.user_id, r.timestamp, r.mood, r.device, r.location with
    | some u, some ts, some m, some d, some loc => some ⟨u, ts, m, d, loc⟩
    | _, _, _, _, _ => none)

/-- Embedding of `raw_data['tracks'].dropna()`: drop the rows holding a
missing value in any present column. -/
def dropnaTracks (df : TracksDf) : TracksDf :=
  { df with rows := df.rows.filter (fun r =>
      (!df.hasId || r.tid.isSome) && (!df.hasArtists || r.artists.isSome) &&
      (!df.hasName || r.tname.isSome)) }

/-- Absolute timestamp distance, in seconds, between an interaction and a
context record. -/
def ctxDist (i : Interaction) (c : ContextRecord) : Nat :=
  (c.timestamp - i.timestamp).natAbs

/-- The context records eligible to match an interaction under
`pd.merge_asof(..., by='user_id', tolerance=pd.Timedelta("1min"))`: same user,
within 60 seconds. -/
def ctxCandidates (i : Interaction) (ctx : List ContextRecord) :
    List ContextRecord :=
  ctx.filter (fun c => c.user_id == i.user_id && decide (ctxDist i c ≤ 60))

/-- Whether candidate `c` beats the current best `b` for interaction `i`:
strictly closer in time, or equally close with an earlier-or-equal timestamp
(`merge_asof` with `direction='nearest'` prefers the backward match on a
distance tie, and the last of equal timestamps). -/
def betterCtx (i : Interaction) (b c : ContextRecord) : Bool :=
  decide (ctxDist i c < ctxDist i b) ||
    (decide (ctxDist i c = ctxDist i b) && decide (c.timestamp ≤ b.timestamp))

/-- One step of the nearest-record scan: keep the better of the current best
match and the next candidate. -/
def bestStep (i : Interaction) (best : Option ContextRecord)
    (c : ContextRecord) : Option ContextRecord :=
  match best with
  | none => some c
  | some b => if betterCtx i b c then some c else some b

/-- The context record matched to interaction `i` by the `merge_asof` join:
the nearest same-user record within the 60-second tolerance, or `none`. -/
def bestContext (i : Interaction) (ctx : List ContextRecord) :
    Option ContextRecord :=
  (ctxCandidates i ctx).foldl (bestStep i) none

/-- An interaction row merged with its (optional) context match.  `merge_asof`
is a left join on the interaction rows; the row keeps the interaction's
timestamp and carries the context columns `mood`, `device`, `location`,
which are NaN when no context record matched within tolerance. -/
structure MergedRow where
  user_id : Int
  track_id : Int
  action : String
  timestamp : Int
  mood : Option ℚ
  device : Option String
  location : Option String
deriving DecidableEq, Repr

/-- Build the `merge_asof` output row for one interaction. -/
def mkMergedRow (i : Interaction) (c : Option ContextRecord) : MergedRow :=
  { user_id := i.user_id, track_id := i.track_id, action := i.action
    timestamp := i.timestamp
    mood := c.map (·.mood), device := c.map (·.device)
    location := c.map (·.location) }

/-- A track-metadata row as it takes part in the left merge, after the
missing-column synthesis: the key of a synthesized `track_id` column is the
placeholder string (which can never equal an integer interaction key), and a
synthesized `artists`/`track_name` column holds its placeholder string.  This
models `tracks_df[col] = f"Unknown {col.replace('_', ' ').title()}"` followed
by the selection `tracks_df[['track_id', 'artists', 'track_name']]`. -/
structure MTrack where
  tid : Int ⊕ String
  artists : String
  tname : String
deriving DecidableEq, Repr

/-- The effective merge-side rows of a (dropna'd) track-metadata frame,
with placeholder synthesis for absent columns.  The `getD` defaults are
unreachable on `dropnaTracks` output. -/
def effTracks (df : TracksDf) : List MTrack :=
  df.rows.map (fun r =>
    { tid := if df.hasId then Sum.inl (r.tid.getD 0) else Sum.inr "Unknown Track Id"
      artists := if df.hasArtists then r.artists.getD "" else "Unknown Artists"
      tname := if df.hasName then r.tname.getD "" else "Unknown Track Name" })

/-- Whether a merge-side track row's key equals an integer interaction key. -/
def tidMatches (t : MTrack) (k : Int) : Bool :=
  match t.tid with
  | Sum.inl n => n == k
  | Sum.inr _ => false

/-- The distinct integer keys of the merge-side track rows. -/
def trackKeys (l : List MTrack) : List Int :=
  l.filterMap (fun t =>
    match t.tid with
    | Sum.inl n => some n
    | Sum.inr _ => none)

/-- A row after the left merge with track metadata
(`pd.merge(..., on='track_id', how='left')`): the interaction-plus-context
row extended with the (possibly NaN) `artists` and `track_name` columns. -/
structure Row2 extends MergedRow where
  artists : Option String
  track_name : Option String
deriving DecidableEq, Repr

/-- Embedding of the left merge with the track metadata: every left row with
no key match is kept once with NaN track columns; a left row with matches is
replicated once per matching metadata row (pandas many-to-one/many semantics).
With unique metadata keys this is exactly one output row per input row. -/
def leftMergeTracks (rows : List MergedRow) (tracks : List MTrack) :
    List Row2 :=
  rows.flatMap (fun r =>
    match tracks.filter (fun t => tidMatches t r.track_id) with
    | [] => [{ toMergedRow := r, artists := none, track_name := none }]
    | ms => ms.map (fun t =>
        { toMergedRow := r, artists := some t.artists, track_name := some t.tname }))

/-- Embedding of `merged_df['artists'].fillna('Unknown Artist')`
(src/pipeline.py:187-189; the guarding `isna().any()` check changes nothing
pointwise). -/
def fillnaArtists (rows : List Row2) : List Row2 :=
  rows.map (fun r => { r with artists := some (r.artists.getD "Unknown Artist") })

/-- A fully processed row: the merged row plus the computed `session_diff`
and `session_id` columns. -/
structure PRow extends Row2 where
  session_diff : Int
  session_id : Nat
deriving DecidableEq, Repr

/-- Non-strict ordering on interactions by timestamp, for
`interactions_df.sort_values('timestamp')`. -/
def tsLe (a b : Interaction) : Prop := a.timestamp ≤ b.timestamp

instance : DecidableRel tsLe := fun a b => Int.decLe _ _

instance : IsTotal Interaction tsLe := ⟨fun a b => Int.le_total _ _⟩

instance : IsTrans Interaction tsLe := ⟨fun _ _ _ h h' => le_trans h h'⟩

/-- Non-strict ordering on context records by timestamp, for
`context_df.sort_values('timestamp')`. -/
def ctxTsLe (a b : ContextRecord) : Prop := a.timestamp ≤ b.timestamp

instance : DecidableRel ctxTsLe := fun a b => Int.decLe _ _

instance : IsTotal ContextRecord ctxTsLe := ⟨fun a b => Int.le_total _ _⟩

instance : IsTrans ContextRecord ctxTsLe := ⟨fun _ _ _ h h' => le_trans h h'⟩

/-- Lexicographic ordering on merged rows by `(user_id, timestamp)`, for
`merged_df.sort_values(['user_id', 'timestamp'])`. -/
def rowLe (a b : Row2) : Prop :=
  a.user_id < b.user_id ∨ (a.user_id = b.user_id ∧ a.timestamp ≤ b.timestamp)

instance : DecidableRel rowLe := fun a b => by
  unfold rowLe; exact inferInstance

instance : IsTotal Row2 rowLe :=
  ⟨fun a b => by
    rcases lt_trichotomy a.user_id b.user_id with h | h | h
    · exact Or.inl (Or.inl h)
    · rcases Int.le_total a.timestamp b.timestamp with h' | h'
      · exact Or.inl (Or.inr ⟨h, h'⟩)
      · exact Or.inr (Or.inr ⟨h.symm, h'⟩)
    · exact Or.inr (Or.inl h)⟩

instance : IsTrans Row2 rowLe :=
  ⟨fun a b c h h' => by
    rcases h with h | ⟨e, t⟩ <;> rcases h' with h' | ⟨e', t'⟩
    · exact Or.inl (lt_trans h h')
    · exact Or.inl (e' ▸ h)
    · exact Or.inl (e ▸ h')
    · exact Or.inr ⟨e.trans e', le_trans t t'⟩⟩

/-- The user id of the first row of a group (0 on the empty list, which never
occurs among the groups produced by `groupByUser`). -/
def headUserId : List Row2 → Int
  | [] => 0
  | r :: _ => r.user_id

/-- Split a (user-sorted) row list into its maximal runs of equal `user_id`,
mirroring `merged_df.groupby('user_id')` on a frame sorted by
`['user_id', 'timestamp']`. -/
def groupByUser : List Row2 → List (List Row2)
  | [] => []
  | r :: rs =>
    match groupByUser rs with
    | [] => [[r]]
    | [] :: gs => [r] :: gs
    | (x :: g) :: gs =>
      if r.user_id == x.user_id then (r :: x :: g) :: gs
      else [r] :: (x :: g) :: gs

/-- The per-group session scan after the first row: carries the previous
row's timestamp and the running session id; a gap strictly greater than
300 seconds starts a new session.  This is
`(group['timestamp'].diff() > 300).cumsum()` row by row. -/
def sessGo (prevTs : Int) (sid : Nat) : List Row2 → List PRow
  | [] => []
  | r :: rs =>
    let d := r.timestamp - prevTs
    let s := if 300 < d then sid + 1 else sid
    { toRow2 := r, session_diff := d, session_id := s } :: sessGo r.timestamp s rs

/-- Session assignment for one user's (timestamp-ordered) rows: the first row
gets `session_diff = 0` (pandas `diff()` is NaN there, `fillna(0)`) and
`session_id = 0`. -/
def sessionScan1 : List Row2 → List PRow
  | [] => []
  | r :: rs =>
    { toRow2 := r, session_diff := 0, session_id := 0 } :: sessGo r.timestamp 0 rs

/-- Embedding of the session-id stage (src/pipeline.py:192-195,
src/app.py:1421-1424): sort by `(user_id, timestamp)`, then per user compute
the gap to the previous event and the cumulative count of gaps exceeding
300 seconds.  The pandas `groupby(...).apply(...).reset_index(drop=True)`
aligns positionally with the sorted frame because the user groups are
contiguous runs of the sorted frame. -/
def sessionize (l : List Row2) : List PRow :=
  ((groupByUser (List.insertionSort rowLe l)).map sessionScan1).flatten

namespace Pipeline

/-- Embedding of `preprocess_data` from src/pipeline.py:141-197.
Steps, in source order: `dropna` each input; the bare expression
`tracks_df['artists']` at line 154, which raises a `KeyError` when the
`artists` column is absent (reaching this before the missing-column
synthesis can run); placeholder synthesis for the remaining required columns
(folded into `effTracks`); the `merge_asof` context join on sorted frames;
the left merge with the selected track columns; the
`fillna('Unknown Artist')` backfill (the `ValueError` branch at line 186 is
unreachable because the merge output always carries the selected `artists`
column); and session assignment.  The failure value models the uncaught
Python exception. -/
def preprocess_data (raw : RawData) : Except String (List PRow) :=
  let interactions_df := dropnaInteractions raw.interactions
  let context_df := List.insertionSort ctxTsLe (dropnaContext raw.context)
  let tracks_df := dropnaTracks raw.tracks
  if tracks_df.hasArtists then
    let merged := (List.insertionSort tsLe interactions_df).map
      (fun i => mkMergedRow i (bestContext i context_df))
    let merged2 := leftMergeTracks merged (effTracks tracks_df)
    Except.ok (sessionize (fillnaArtists merged2))
  else
    Except.error "KeyError: artists"

end Pipeline

namespace App

/-- Embedding of `preprocess_data` from src/app.py:1384-1433.  Differences
from the src/pipeline.py copy: no bare `tracks_df['artists']` access (the
rename block at lines 1392-1395 has a self-contradictory condition and is
dead code), so a frame without an `artists` column proceeds through the
placeholder synthesis; and there is no `fillna('Unknown Artist')` backfill
after the left merge, so a track with no metadata match keeps a NaN
`artists` value.  The optional `track_genre` merge at lines 1426-1431 is not
modelled (no modelled input carries genre columns).  This copy raises on no
input. -/
def preprocess_data (raw : RawData) : List PRow :=
  let interactions_df := dropnaInteractions raw.interactions
  let context_df := List.insertionSort ctxTsLe (dropnaContext raw.context)
  let tracks_df := dropnaTracks raw.tracks
  let merged := (List.insertionSort tsLe interactions_df).map
    (fun i => mkMergedRow i (bestContext i context_df))
  sessionize (leftMergeTracks merged (effTracks tracks_df))

end App

/-- A per-track feature mapping (audio/fused/latent feature dictionaries). -/
def FeatVec := List (String × ℚ)

/-- The heterogeneous interaction graph dictionary
(src/pipeline.py:306-315, src/app.py:1499-1508).  The Python node sets are
modelled as first-occurrence-deduplicated lists; the theorems below use them
set-wise where the source's set semantics leaves the order unspecified. -/
structure Graph where
  users : List Int
  tracks : List Int
  artists : List String
  edges : List (Int × Int × ℚ)
  weighted_edges : List (Int × Int × ℚ)
  track_to_artist : List (Int × String)
deriving DecidableEq, Repr

/-- First-occurrence deduplication, modelling iteration over `unique()`
values / Python dict key order. -/
def firstSeen [DecidableEq α] (l : List α) : List α :=
  l.foldl (fun acc a => if a ∈ acc then acc else acc ++ [a]) []

/-- Insert into an association list with Python dict semantics: an existing
key is updated in place, a new key is appended. -/
def dictInsert [DecidableEq κ] (m : List (κ × ν)) (k : κ) (v : ν) :
    List (κ × ν) :=
  if m.any (fun p => p.1 = k) then
    m.map (fun p => if p.1 = k then (k, v) else p)
  else m ++ [(k, v)]

/-- Build a Python dict from a pair list (`dict(zip(...))`): later duplicate
keys overwrite earlier ones. -/
def dictOfZip [DecidableEq κ] (l : List (κ × ν)) : List (κ × ν) :=
  l.foldl (fun m p => dictInsert m p.1 p.2) []

/-- Association-list lookup with default, modelling `dict.get(k, d)` (the
key lists built by `dictOfZip` hold each key at most once). -/
def dictGet [DecidableEq κ] (m : List (κ × ν)) (k : κ) (d : ν) : ν :=
  match m.find? (fun p => p.1 = k) with
  | some p => p.2
  | none => d

/-- The edge weight assigned to an interaction row by its `action`
(src/pipeline.py:289-300, src/app.py:1482-1493): the if/elif chain of the
edge-building loop, with default weight 1.0 for any other action string. -/
def actionWeight (action : String) : ℚ :=
  if action = "play" then 1.0
  else if action = "skip" then 0.5
  else if action = "like" then 1.5
  else if action = "playlist_add" then 1.2
  else 1.0

/-- Embedding of `apply_graph_models` (src/pipeline.py:318-328,
src/app.py:1511-1519): multiply every raw edge weight by the fixed
adjustment factor 1.2. -/
def apply_graph_models (edges : List (Int × Int × ℚ)) : List (Int × Int × ℚ) :=
  edges.map (fun e => (e.1, e.2.1, e.2.2 * 1.2))

/-- Embedding of `build_interaction_graph` (src/pipeline.py:274-316,
src/app.py:1469-1509).  The `fused_features` argument is accepted and unused,
as in the source.  Reading `track_metadata['track_id']` /
`track_metadata['artists']` raises a `KeyError` when the column is absent;
metadata rows with a NaN in either column are not modelled in the zip.
NaN `artists` values in the processed rows (impossible on the
src/pipeline.py path, which backfills them) are omitted from the artist
node set. -/
def build_interaction_graph (processed : List PRow)
    (fused_features : List (Int × FeatVec)) (track_metadata : TracksDf) :
    Except String Graph :=
  if track_metadata.hasId && track_metadata.hasArtists then
    Except.ok
      { users := firstSeen (processed.map (·.user_id))
        tracks := firstSeen (processed.map (·.track_id))
        artists := firstSeen (processed.filterMap (·.artists))
        edges := processed.map (fun r => (r.user_id, r.track_id, actionWeight r.action))
        weighted_edges := apply_graph_models
          (processed.map (fun r => (r.user_id, r.track_id, actionWeight r.action)))
        track_to_artist := dictOfZip (track_metadata.rows.filterMap (fun r =>
          match r.tid, r.artists with
          | some t, some a => some (t, a)
          | _, _ => none)) }
  else Except.error "KeyError: track metadata column"

namespace Pipeline

/-- Embedding of `adaptive_recommendations` from src/pipeline.py:341-351:
every user in the graph's user node set is mapped to the first key of
`latent_features` (`track_ids[0] if track_ids else None`). -/
def adaptive_recommendations (graph : Graph)
    (latent_features : List (Int × FeatVec)) : List (Int × Option Int) :=
  let track_ids := latent_features.map (·.1)
  graph.users.map (fun user => (user, track_ids.head?))

/-- Embedding of `generate_explanations` from src/pipeline.py:353-364: every
`(user, track)` item of the recommendations dict gets an explanation string;
there is no filtering, so a user whose recommendation is `None` also gets an
entry (the f-string prints the Python value `None`).  The `graph` argument is
accepted and unused, as in the source. -/
def generate_explanations (recommendations : List (Int × Option Int))
    (graph : Graph) : List (Int × String) :=
  recommendations.map (fun p =>
    (p.1,
      "User " ++ toString p.1 ++ " is recommended track " ++
        (match p.2 with
         | none => "None"
         | some t => toString t) ++
        " due to high interaction weight and latent similarity."))

end Pipeline

namespace App

/-- Embedding of `adaptive_recommendations` from src/app.py:1521-1529: as the
src/pipeline.py copy, but the recommended track is `random.choice(track_ids)`,
abstracted by the `pick` oracle (only reached when `track_ids` is
non-empty). -/
def adaptive_recommendations (pick : List Int → Int) (graph : Graph)
    (latent_features : List (Int × FeatVec)) : List (Int × Option Int) :=
  let track_ids := latent_features.map (·.1)
  graph.users.map (fun user =>
    (user, if track_ids.isEmpty then none else some (pick track_ids)))

/-- The explanation templates of src/app.py:1538-1544. -/
def templates : List String :=
  ["Based on your interest in {genre} music, we think you'll enjoy this {mood} track by {artist}.",
   "Since you've been listening to artists like {similar_artist}, we recommend this {genre} track from {artist}.",
   "This {mood} song by {artist} matches your listening patterns during {time_of_day}.",
   "Fans of {similar_artist} also enjoy this {genre} track by {artist}.",
   "This {genre} track by {artist} has similar audio characteristics to songs you frequently play."]

/-- The mood descriptors of src/app.py:1547. -/
def moods : List String :=
  ["energetic", "relaxing", "upbeat", "mellow", "intense", "atmospheric"]

/-- The genre descriptors of src/app.py:1548. -/
def genres : List String :=
  ["pop", "rock", "electronic", "hip-hop", "indie", "jazz", "classical"]

/-- The time-of-day descriptors of src/app.py:1549. -/
def times : List String := ["morning", "afternoon", "evening", "late night"]

/-- Python truthiness of an optional track id: `if track:` is false for
`None` and for the integer 0. -/
def truthy : Option Int → Bool
  | none => false
  | some t => t != 0

/-- The `template.format(...)` call of src/app.py:1566-1572: substitute the
five named placeholders. -/
def formatTemplate (t artist genre mood similar tod : String) : String :=
  ((((t.replace "{artist}" artist).replace "{genre}" genre).replace
      "{mood}" mood).replace "{similar_artist}" similar).replace
    "{time_of_day}" tod

/-- The body of the explanation loop of src/app.py:1551-1574, for one
`(user, track)` item: only a truthy recommended track (`if track:`) adds an
entry; the artist is resolved through `track_to_artist` with default
"Unknown Artist", and the template and descriptors are drawn by
`random.choice`, abstracted by the `choice` oracle. -/
def explainStep (choice : List String → String) (graph : Graph)
    (explanations : List (Int × String)) (p : Int × Option Int) :
    List (Int × String) :=
  match p.2 with
  | some track =>
    if track != 0 then
      let artist := dictGet graph.track_to_artist track "Unknown Artist"
      let similar_artists := graph.artists.filter (fun a => a != artist)
      let similar_artist :=
        if similar_artists.isEmpty then "other artists you like"
        else choice similar_artists
      let mood := choice moods
      let genre := choice genres
      let time_of_day := choice times
      let template := choice templates
      explanations ++
        [(p.1, formatTemplate template artist genre mood similar_artist time_of_day)]
    else explanations
  | none => explanations

/-- Embedding of `generate_explanations` from src/app.py:1531-1576: fold
`explainStep` over the recommendation items in order. -/
def generate_explanations (choice : List String → String)
    (recommendations : List (Int × Option Int)) (graph : Graph) :
    List (Int × String) :=
  recommendations.foldl (explainStep choice graph) []

end App

/-- The artist bucket an edge's track is attributed to by the leaderboard:
`graph['track_to_artist'].get(track, "Unknown Artist")`. -/
def bucketOf (t2a : List (Int × String)) (track : Int) : String :=
  dictGet t2a track "Unknown Artist"

/-- One step of the leaderboard accumulation dict:
`artist_scores[artist] = artist_scores.get(artist, 0) + weight`. -/
def addScore (acc : List (String × ℚ)) (a : String) (w : ℚ) :
    List (String × ℚ) :=
  if acc.any (fun p => p.1 = a) then
    acc.map (fun p => if p.1 = a then (p.1, p.2 + w) else p)
  else acc ++ [(a, w)]

/-- The accumulation loop of `compute_leaderboard`: fold the weighted edges,
in order, into the per-artist score dict (keys in first-encounter order). -/
def accumScores (edges : List (Int × Int × ℚ)) (t2a : List (Int × String)) :
    List (String × ℚ) :=
  edges.foldl (fun acc e => addScore acc (bucketOf t2a e.2.1) e.2.2) []

/-- The descending-score ordering used by
`sorted(..., key=lambda x: x[1], reverse=True)`. -/
def scoreGe (a b : String × ℚ) : Prop := b.2 ≤ a.2

instance : DecidableRel scoreGe := fun a b => Rat.instDecidableLe b.2 a.2

instance : IsTotal (String × ℚ) scoreGe := ⟨fun a b => le_total b.2 a.2⟩

instance : IsTrans (String × ℚ) scoreGe :=
  ⟨fun _ _ _ h h' => le_trans h' h⟩

/-- Embedding of `compute_leaderboard` (src/pipeline.py:369-380,
src/app.py:1579-1588): accumulate weighted-edge scores per artist bucket,
then sort descending by score.  Python's `sorted` is stable and
`reverse=True` preserves stability, which `List.insertionSort` with the
non-strict relation `scoreGe` reproduces. -/
def compute_leaderboard (g : Graph) : List (String × ℚ) :=
  List.insertionSort scoreGe (accumScores g.weighted_edges g.track_to_artist)

/-- The interaction carried by a processed row (its `user_id`, `track_id`,
`action`, `timestamp` columns). -/
def interactionOfRow (p : PRow) : Interaction :=
  { user_id := p.user_id, track_id := p.track_id, action := p.action
    timestamp := p.timestamp }

/-- Specification predicate (claim C9): the context columns of a processed
row are exactly those of the `merge_asof` match of its interaction against
the given context list. -/
def rowContextMatches (ctx : List ContextRecord) (p : PRow) : Prop :=
  p.mood = (bestContext (interactionOfRow p) ctx).map (·.mood) ∧
  p.device = (bestContext (interactionOfRow p) ctx).map (·.device) ∧
  p.location = (bestContext (interactionOfRow p) ctx).map (·.location)

/-- Specification predicate (claim C1): the relation between two consecutive
rows of one user's sequence — a gap of at most 300 seconds keeps the
session id, a larger gap increments it by exactly one, and the session id
never decreases. -/
def adjSession (a b : PRow) : Prop :=
  (b.timestamp - a.timestamp ≤ 300 → b.session_id = a.session_id) ∧
  (300 < b.timestamp - a.timestamp → b.session_id = a.session_id + 1) ∧
  a.session_id ≤ b.session_id

/-- One user's rows of a processed table, in table order. -/
def userRows (df : List PRow) (u : Int) : List PRow :=
  df.filter (fun p => p.user_id == u)

/-- Specification predicate (claim C1), for a whole processed table: for
every user, that user's rows are in ascending timestamp order, the first has
session id 0, consecutive rows satisfy `adjSession`, and session ids are
monotonically non-decreasing along the sequence. -/
def sessionProperty (df : List PRow) : Prop :=
  ∀ u : Int,
    (∀ p, (userRows df u).head? = some p → p.session_id = 0) ∧
    List.Chain' adjSession (userRows df u) ∧
    (userRows df u).Pairwise (fun a b => a.session_id ≤ b.session_id) ∧
    (userRows df u).Pairwise (fun a b => a.timestamp ≤ b.timestamp)

/-- A deterministic oracle instantiation: every `random.choice` site returns
the first element of its pool. -/
def rng0 : Rng :=
  { pickUser := fun _ l => l.headD 0
    pickTrack := fun _ l => l.headD 0
    pickAction := fun _ l => l.headD ""
    interactionDelay := fun _ => 0
    ctxUser := fun _ => 1
    ctxDelay := fun _ => 0
    mood := fun _ => 1/2
    pickDevice := fun _ l => l.headD ""
    pickLocation := fun _ l => l.headD "" }

/-- A loaded metadata frame that is non-empty but has no `track_id` column. -/
def df10 : TracksDf := ⟨false, true, true, [⟨none, some "A", some "X"⟩]⟩

/-- A metadata frame whose `artists` column is entirely absent. -/
def c6tracks : TracksDf := ⟨true, false, true, [⟨some 1, none, some "X"⟩]⟩

/-- Raw data whose track metadata lacks the `artists` column. -/
def c6raw : RawData :=
  { interactions := [⟨some 7, some 1, some "play", some 0⟩]
    tracks := c6tracks
    context := [] }

/-- The empty graph. -/
def g0 : Graph := ⟨[], [], [], [], [], []⟩

/-- Concrete raw data: one user with two interactions 400 seconds apart, one
context record matching the first interaction only, and track metadata
covering only the first interaction's track. -/
def rawP : RawData :=
  { interactions := [⟨some 3, some 1, some "play", some 0⟩,
                     ⟨some 3, some 2, some "like", some 400⟩]
    tracks := ⟨true, true, true, [⟨some 1, some "A", some "X"⟩]⟩
    context := [⟨some 3, some 30, some 1, some "mobile", some "CityA"⟩] }

/-- The processed table `Pipeline.preprocess_data rawP` evaluates to. -/
def dfP : List PRow :=
  [{ toRow2 := { toMergedRow := { user_id := 3, track_id := 1, action := "play",
                                  timestamp := 0, mood := some 1,
                                  device := some "mobile",
                                  location := some "CityA" },
                 artists := some "A", track_name := some "X" },
     session_diff := 0, session_id := 0 },
   { toRow2 := { toMergedRow := { user_id := 3, track_id := 2, action := "like",
                                  timestamp := 400, mood := none,
                                  device := none, location := none },
                 artists := some "Unknown Artist", track_name := none },
     session_diff := 400, session_id := 1 }]

/-- A processed row used to instantiate the graph-builder theorems. -/
def pW2 : PRow :=
  { toRow2 := { toMergedRow := { user_id := 7, track_id := 1, action := "like",
                                 timestamp := 0, mood := none, device := none,
                                 location := none },
                artists := some "A", track_name := some "X" },
    session_diff := 0, session_id := 0 }

/-- A complete one-track metadata frame. -/
def mdW2 : TracksDf := ⟨true, true, true, [⟨some 1, some "A", some "X"⟩]⟩

/-- The graph `build_interaction_graph [pW2] [] mdW2` evaluates to. -/
def gW2 : Graph :=
  { users := [7], tracks := [1], artists := ["A"], edges := [(7, 1, 1.5)],
    weighted_edges := [(7, 1, 1.8)], track_to_artist := [(1, "A")] }

/-- A graph with two users and no tracks. -/
def gW7 : Graph := ⟨[3, 5], [], [], [], [], []⟩

/-- The interaction columns of a merged row. -/
def mergedInteraction (m : MergedRow) : Interaction :=
  { user_id := m.user_id, track_id := m.track_id, action := m.action
    timestamp := m.timestamp }

/-- The interaction columns of a post-merge row. -/
def rowInteraction (r : Row2) : Interaction := mergedInteraction r.toMergedRow

/-- Specification value (claim C3): the total weighted-edge score attributed
to artist bucket `a` — the sum of the weights of the edges whose track maps
to `a` under `track_to_artist` (unmapped tracks fall in the
"Unknown Artist" bucket). -/
def edgeScore (edges : List (Int × Int × ℚ)) (t2a : List (Int × String))
    (a : String) : ℚ :=
  ((edges.filter (fun e => decide (bucketOf t2a e.2.1 = a))).map
    (fun e => e.2.2)).sum

/-- A graph with three weighted edges over two artists, for the leaderboard
witness. -/
def gW3 : Graph :=
  { users := [1, 2], tracks := [10, 20], artists := ["A", "B"],
    edges := [(1, 10, 2), (2, 20, 1), (1, 10, 1)],
    weighted_edges := [(1, 10, 2), (2, 20, 1), (1, 10, 1)],
    track_to_artist := [(10, "A"), (20, "B")] }

/-! ### Helper lemmas -/

theorem mem_intRange1 (n : Nat) (t : Int) :
    t ∈ intRange1 n ↔ 1 ≤ t ∧ t ≤ (n : Int) := by
  unfold intRange1
  rw [List.mem_map]
  constructor
  · rintro ⟨k, hk, rfl⟩
    rw [List.mem_range] at hk
    omega
  · rintro ⟨h1, h2⟩
    exact ⟨(t - 1).toNat, List.mem_range.mpr (by omega), by omega⟩

theorem headD_mem {α : Type} (l : List α) (d : α) (h : l ≠ []) :
    l.headD d ∈ l := by
  cases l with
  | nil => exact absurd rfl h
  | cons a as => simp [List.headD]

/-! ### Claim C7 -/

/-- Claim C7: for every graph and latent-feature mapping,
`adaptive_recommendations` (both copies; the src/app.py copy draws through
the `pick` oracle) returns a mapping whose key list is exactly the graph's
user node list — in particular the key set is exactly the user node set —
and when the latent-feature mapping is empty every user is mapped to `none`.
Both embedded copies are total, so no exception is raised. -/
theorem claim_C7 (g : Graph) (latent : List (Int × FeatVec))
    (pick : List Int → Int) :
    ((Pipeline.adaptive_recommendations g latent).map Prod.fst = g.users) ∧
    ((App.adaptive_recommendations pick g latent).map Prod.fst = g.users) ∧
    (∀ u : Int,
      u ∈ (Pipeline.adaptive_recommendations g latent).map Prod.fst ↔ u ∈ g.users) ∧
    (latent = [] →
      (∀ p ∈ Pipeline.adaptive_recommendations g latent, p.2 = none) ∧
      (∀ p ∈ App.adaptive_recommendations pick g latent, p.2 = none)) := by
  refine ⟨?_, ?_, ?_, ?_⟩
  · simp [Pipeline.adaptive_recommendations, List.map_map, Function.comp_def]
  · simp [App.adaptive_recommendations, List.map_map, Function.comp_def]
  · intro u
    simp [Pipeline.adaptive_recommendations, List.map_map, Function.comp_def]
  · rintro rfl
    constructor
    · intro p hp
      simp only [Pipeline.adaptive_recommendations, List.map_nil,
        List.head?_nil, List.mem_map] at hp
      obtain ⟨u, _, rfl⟩ := hp
      rfl
    · intro p hp
      simp only [App.adaptive_recommendations, List.map_nil,
        List.isEmpty_nil, if_true, List.mem_map] at hp
      obtain ⟨u, _, rfl⟩ := hp
      rfl

/-- Witness for C7 at a concrete graph with users `[3, 5]` and an empty
latent-feature mapping. -/
theorem claim_C7_witness :
    ((Pipeline.adaptive_recommendations gW7 []).map Prod.fst = gW7.users) ∧
    (∀ p ∈ Pipeline.adaptive_recommendations gW7 [], p.2 = none) ∧
    (∀ p ∈ App.adaptive_recommendations (fun _ => 0) gW7 [], p.2 = none) :=
  ⟨(claim_C7 gW7 [] (fun _ => 0)).1,
   ((claim_C7 gW7 [] (fun _ => 0)).2.2.2 rfl).1,
   ((claim_C7 gW7 [] (fun _ => 0)).2.2.2 rfl).2⟩

/-! ### Claim C2 -/

/-- Claim C2: whenever `build_interaction_graph` returns a graph, its raw
edges are exactly one edge per processed row, in order, weighted purely by
the action through the fixed table (play 1.0, skip 0.5, like 1.5,
playlist_add 1.2, anything else 1.0, never an error), and `weighted_edges`
is exactly the edge list with the same `(user, track)` pairs in the same
order and each weight multiplied by 1.2. -/
theorem claim_C2 (processed : List PRow) (fused : List (Int × FeatVec))
    (md : TracksDf) (g : Graph)
    (h : build_interaction_graph processed fused md = Except.ok g) :
    g.edges = processed.map (fun r => (r.user_id, r.track_id, actionWeight r.action)) ∧
    actionWeight "play" = 1 ∧ actionWeight "skip" = 1/2 ∧
    actionWeight "like" = 3/2 ∧ actionWeight "playlist_add" = 6/5 ∧
    (∀ a : String, a ≠ "play" → a ≠ "skip" → a ≠ "like" → a ≠ "playlist_add" →
      actionWeight a = 1) ∧
    g.weighted_edges = g.edges.map (fun e => (e.1, e.2.1, e.2.2 * 1.2)) ∧
    g.weighted_edges.map (fun e => (e.1, e.2.1)) = g.edges.map (fun e => (e.1, e.2.1)) := by
  unfold build_interaction_graph at h
  by_cases hc : md.hasId && md.hasArtists
  · rw [if_pos hc] at h
    injection h with h
    subst h
    refine ⟨rfl, by norm_num +decide [actionWeight], by norm_num +decide [actionWeight],
      by norm_num +decide [actionWeight], by norm_num +decide [actionWeight], ?_, rfl, ?_⟩
    · intro a h1 h2 h3 h4
      simp only [actionWeight, if_neg h1, if_neg h2, if_neg h3, if_neg h4]
      norm_num
    · simp [apply_graph_models, List.map_map, Function.comp_def]
  · rw [if_neg hc] at h
    exact absurd h (by simp)

/-- Witness for C2: the graph built from one `like` row gets raw weight 1.5
and adjusted weight 1.8, and an unknown action string maps to weight 1. -/
theorem claim_C2_witness :
    build_interaction_graph [pW2] [] mdW2 = Except.ok gW2 ∧
    gW2.weighted_edges = gW2.edges.map (fun e => (e.1, e.2.1, e.2.2 * 1.2)) ∧
    actionWeight "stream" = 1 := by
  have hb : build_interaction_graph [pW2] [] mdW2 = Except.ok gW2 := by
    simp +decide only [build_interaction_graph, mdW2, pW2, gW2, firstSeen,
      dictOfZip, dictInsert, apply_graph_models, List.foldl, List.map,
      List.filterMap, List.any, Bool.and_self, if_true, Except.ok.injEq,
      Graph.mk.injEq, List.cons.injEq, Prod.mk.injEq]
    norm_num +decide [actionWeight]
  exact ⟨hb, (claim_C2 [pW2] [] mdW2 gW2 hb).2.2.2.2.2.2.1,
    (claim_C2 [pW2] [] mdW2 gW2 hb).2.2.2.2.2.1 "stream"
      (by decide) (by decide) (by decide) (by decide)⟩

theorem intRange1_ne_nil (n : Nat) (h : 0 < n) : intRange1 n ≠ [] := by
  intro he
  have : (intRange1 n).length = n := by simp [intRange1]
  rw [he] at this
  simp at this
  omega

/-! ### Claim C5 -/

theorem explainStep_keys (choice : List String → String) (g : Graph)
    (acc : List (Int × String)) (p : Int × Option Int) :
    (App.explainStep choice g acc p).map Prod.fst =
      acc.map Prod.fst ++ (if App.truthy p.2 then [p.1] else []) := by
  obtain ⟨u, tr⟩ := p
  cases tr with
  | none => simp [App.explainStep, App.truthy]
  | some t =>
    by_cases h : t = 0
    · subst h
      simp [App.explainStep, App.truthy]
    · simp [App.explainStep, App.truthy, h]

theorem foldl_explainStep_keys (recs : List (Int × Option Int))
    (choice : List String → String) (g : Graph) :
    ∀ acc : List (Int × String),
      (recs.foldl (App.explainStep choice g) acc).map Prod.fst =
        acc.map Prod.fst ++ (recs.filter (fun p => App.truthy p.2)).map Prod.fst := by
  induction recs with
  | nil => intro acc; simp
  | cons p rs ih =>
    intro acc
    rw [List.foldl_cons, ih, explainStep_keys]
    cases h : App.truthy p.2 <;>
      simp [List.filter_cons, h, List.append_assoc]

/-- Claim C5, amended: the src/pipeline.py copy of `generate_explanations`
produces an entry for every user of the recommendations mapping, including
users whose recommendation is null; the src/app.py copy produces entries
exactly for the users whose recommendation is truthy (non-null and non-zero),
in mapping order. -/
theorem claim_C5 (recs : List (Int × Option Int)) (g : Graph)
    (choice : List String → String) :
    (Pipeline.generate_explanations recs g).map Prod.fst = recs.map Prod.fst ∧
    (App.generate_explanations choice recs g).map Prod.fst =
      (recs.filter (fun p => App.truthy p.2)).map Prod.fst := by
  constructor
  · simp [Pipeline.generate_explanations, List.map_map, Function.comp_def]
  · rw [App.generate_explanations, foldl_explainStep_keys]
    simp

/-- Counterexample to claim C5 as stated: on the recommendations mapping
`{1: None}`, the src/pipeline.py `generate_explanations` returns an entry
for user 1, so its key set is not the (empty) set of users with non-null
recommendations. -/
theorem claim_C5_cx :
    (Pipeline.generate_explanations [((1 : Int), (none : Option Int))] g0).map Prod.fst
      = [1] ∧
    ([((1 : Int), (none : Option Int))].filter (fun p => p.2.isSome)).map Prod.fst
      = [] ∧
    (Pipeline.generate_explanations [((1 : Int), (none : Option Int))] g0).map Prod.fst
      ≠ ([((1 : Int), (none : Option Int))].filter (fun p => p.2.isSome)).map Prod.fst :=
  ⟨rfl, rfl, by decide⟩

/-! ### Claim C6 -/

/-- Claim C6 (code bug in src/pipeline.py): on track metadata whose `artists`
column is entirely absent, the src/pipeline.py `preprocess_data` raises (the
bare `tracks_df['artists']` expression at line 154 runs before the
missing-column synthesis), while the src/app.py copy synthesizes the
placeholder and completes the merge as the claim describes. -/
theorem claim_C6 :
    Pipeline.preprocess_data c6raw = Except.error "KeyError: artists" ∧
    (App.preprocess_data c6raw).map (fun p => p.artists) = [some "Unknown Artists"] ∧
    (App.preprocess_data c6raw).length = 1 :=
  ⟨by decide, by decide, by decide⟩

/-! ### Claim C8 -/

/-- Claim C8: when the track metadata source is absent or unreadable,
`ingest_data` returns the empty track frame and the synthetic interactions
draw their track ids from `range(1, 101)`, i.e. the integers 1..100
inclusive; both embedded copies are total, so nothing is raised.  The
hypothesis is the defining property of `random.choice`. -/
theorem claim_C8 (rng : Rng) (now : Int) (num : Nat)
    (hpick : ∀ (k : Nat) (l : List Int), l ≠ [] → rng.pickTrack k l ∈ l) :
    (ingest_data rng now none num).tracks = emptyTracksDf ∧
    ∀ r ∈ (ingest_data rng now none num).interactions,
      ∃ t, r.track_id = some t ∧ 1 ≤ t ∧ t ≤ 100 := by
  constructor
  · rfl
  · intro r hr
    replace hr : r ∈ simulate_user_interactions rng now num (some (intRange1 100)) := hr
    obtain ⟨k, hk, he⟩ := List.mem_map.mp hr
    refine ⟨rng.pickTrack k (intRange1 100), ?_, ?_⟩
    · rw [← he]
      rfl
    · exact_mod_cast (mem_intRange1 100 _).mp
        (hpick k (intRange1 100) (intRange1_ne_nil 100 (by omega)))

/-- Witness for C8 with the deterministic head-picking oracle. -/
theorem claim_C8_witness :
    (ingest_data rng0 0 none 5).tracks = emptyTracksDf ∧
    ∀ r ∈ (ingest_data rng0 0 none 5).interactions,
      ∃ t, r.track_id = some t ∧ 1 ≤ t ∧ t ≤ 100 :=
  claim_C8 rng0 0 5 (fun k l hl => headD_mem l 0 hl)

/-! ### Claim C10 -/

/-- Claim C10: `ingest_data` also falls back to the synthetic track-id range
1..100 when the loaded metadata is non-empty but has no `track_id` column;
the generated interactions then reference track ids that occur nowhere in the
returned track metadata (which has no track-id column at all). -/
theorem claim_C10 (rng : Rng) (now : Int) (num : Nat) (df : TracksDf)
    (hpick : ∀ (k : Nat) (l : List Int), l ≠ [] → rng.pickTrack k l ∈ l)
    (hrows : df.rows ≠ []) (hid : df.hasId = false) :
    (ingest_data rng now (some df) num).tracks = df ∧
    (∀ r ∈ (ingest_data rng now (some df) num).interactions,
      ∃ t, r.track_id = some t ∧ 1 ≤ t ∧ t ≤ 100) ∧
    trackIdsOf (ingest_data rng now (some df) num).tracks = [] ∧
    (∀ r ∈ (ingest_data rng now (some df) num).interactions, ∀ t,
      r.track_id = some t → t ∉ trackIdsOf (ingest_data rng now (some df) num).tracks) := by
  have hcond : (!df.rows.isEmpty && df.hasId) = false := by simp [hid]
  have htracks : (ingest_data rng now (some df) num).tracks = df := rfl
  have hids : trackIdsOf df = [] := by
    simp [trackIdsOf, hid]
  have hint : (ingest_data rng now (some df) num).interactions =
      simulate_user_interactions rng now num (some (intRange1 100)) := by
    show simulate_user_interactions rng now num
        (some (if (!df.rows.isEmpty && df.hasId) = true then
          df.rows.filterMap (fun x => x.tid) else intRange1 100)) =
      simulate_user_interactions rng now num (some (intRange1 100))
    rw [hcond]
    simp
  refine ⟨htracks, ?_, by rw [htracks]; exact hids, ?_⟩
  · intro r hr
    rw [hint] at hr
    obtain ⟨k, hk, he⟩ := List.mem_map.mp hr
    refine ⟨rng.pickTrack k (intRange1 100), ?_, ?_⟩
    · rw [← he]
      rfl
    · exact_mod_cast (mem_intRange1 100 _).mp
        (hpick k (intRange1 100) (intRange1_ne_nil 100 (by omega)))
  · intro r hr t ht
    rw [htracks, hids]
    simp

/-- Witness for C10 with the deterministic head-picking oracle and a
one-row metadata frame lacking the `track_id` column. -/
theorem claim_C10_witness :
    (ingest_data rng0 0 (some df10) 5).tracks = df10 ∧
    (∀ r ∈ (ingest_data rng0 0 (some df10) 5).interactions,
      ∃ t, r.track_id = some t ∧ 1 ≤ t ∧ t ≤ 100) ∧
    trackIdsOf (ingest_data rng0 0 (some df10) 5).tracks = [] ∧
    (∀ r ∈ (ingest_data rng0 0 (some df10) 5).interactions, ∀ t,
      r.track_id = some t → t ∉ trackIdsOf (ingest_data rng0 0 (some df10) 5).tracks) :=
  claim_C10 rng0 0 5 df10 (fun k l hl => headD_mem l 0 hl) (by decide) (by decide)

/-! ### Claim C3: leaderboard lemmas -/

theorem filter_orderedInsert_score (q : ℚ) (x : String × ℚ) :
    ∀ l : List (String × ℚ),
      (List.orderedInsert scoreGe x l).filter (fun p => decide (p.2 = q)) =
        if x.2 = q then x :: l.filter (fun p => decide (p.2 = q))
        else l.filter (fun p => decide (p.2 = q)) := by
  intro l
  induction l with
  | nil =>
    simp only [List.orderedInsert]
    by_cases hx : x.2 = q <;> simp [List.filter_cons, hx]
  | cons y ys ih =>
    simp only [List.orderedInsert]
    by_cases h : scoreGe x y
    · rw [if_pos h]
      by_cases hx : x.2 = q <;> simp [List.filter_cons, hx]
    · rw [if_neg h]
      have hlt : x.2 < y.2 := not_le.mp h
      simp only [List.filter_cons, ih]
      by_cases hx : x.2 = q
      · have hy : ¬ (y.2 = q) := by
          intro hyq
          rw [hyq] at hlt
          rw [hx] at hlt
          exact lt_irrefl q hlt
        simp [hx, hy]
      · by_cases hy : y.2 = q <;> simp [hx, hy]

theorem filter_insertionSort_score (q : ℚ) :
    ∀ l : List (String × ℚ),
      (List.insertionSort scoreGe l).filter (fun p => decide (p.2 = q)) =
        l.filter (fun p => decide (p.2 = q)) := by
  intro l
  induction l with
  | nil => rfl
  | cons x xs ih =>
    simp only [List.insertionSort]
    rw [filter_orderedInsert_score, ih, List.filter_cons]
    by_cases hx : x.2 = q <;> simp [hx]

theorem addScore_keys (acc : List (String × ℚ)) (a : String) (w : ℚ) :
    (addScore acc a w).map Prod.fst =
      if a ∈ acc.map Prod.fst then acc.map Prod.fst
      else acc.map Prod.fst ++ [a] := by
  unfold addScore
  by_cases h : a ∈ acc.map Prod.fst
  · have hany : (acc.any (fun p => decide (p.1 = a))) = true := by
      obtain ⟨p, hp, he⟩ := List.mem_map.mp h
      exact List.any_eq_true.mpr ⟨p, hp, by simp [he]⟩
    rw [if_pos hany, if_pos h, List.map_map]
    apply List.map_congr_left
    intro p hp
    by_cases hpa : p.1 = a <;> simp [hpa]
  · have hany : (acc.any (fun p => decide (p.1 = a))) = false := by
      rw [List.any_eq_false]
      intro p hp hpa
      exact h (List.mem_map.mpr ⟨p, hp, by simpa using hpa⟩)
    rw [if_neg (by simp [hany]), if_neg h, List.map_append]
    rfl

theorem addScore_spec (acc : List (String × ℚ)) (b : String) (w : ℚ)
    (C : String → ℚ) (hC : ∀ p ∈ acc, p.2 = C p.1)
    (h0 : ∀ c, c ∉ acc.map Prod.fst → C c = 0) :
    (∀ p ∈ addScore acc b w, p.2 = C p.1 + if b = p.1 then w else 0) ∧
    (∀ c, c ∉ (addScore acc b w).map Prod.fst →
      C c + (if b = c then w else 0) = 0) := by
  constructor
  · intro p hp
    unfold addScore at hp
    split at hp
    · obtain ⟨r, hr, hre⟩ := List.mem_map.mp hp
      by_cases hrb : r.1 = b
      · rw [if_pos hrb] at hre
        subst hre
        show r.2 + w = C r.1 + if b = r.1 then w else 0
        rw [if_pos hrb.symm, hC r hr]
      · rw [if_neg hrb] at hre
        subst hre
        rw [if_neg (fun hbp => hrb hbp.symm), add_zero, hC r hr]
    · rename_i hany
      rcases List.mem_append.mp hp with hin | hin
      · have hpb : ¬ (p.1 = b) := by
          intro hpb
          apply hany
          exact List.any_eq_true.mpr ⟨p, hin, by simp [hpb]⟩
        rw [if_neg (fun hbp => hpb hbp.symm), hC p hin, add_zero]
      · rw [List.mem_singleton] at hin
        subst hin
        have hnb : b ∉ acc.map Prod.fst := by
          intro hmem
          obtain ⟨r, hr, hre⟩ := List.mem_map.mp hmem
          exact hany (List.any_eq_true.mpr ⟨r, hr, by simp [hre]⟩)
        rw [if_pos rfl, h0 b hnb, zero_add]
  · intro c hc
    have hsup : ∀ x, x ∈ acc.map Prod.fst → x ∈ (addScore acc b w).map Prod.fst := by
      intro x hx
      rw [addScore_keys]
      by_cases hb : b ∈ acc.map Prod.fst
      · rwa [if_pos hb]
      · rw [if_neg hb]
        exact List.mem_append.mpr (Or.inl hx)
    have hbmem : b ∈ (addScore acc b w).map Prod.fst := by
      rw [addScore_keys]
      by_cases hb : b ∈ acc.map Prod.fst
      · rwa [if_pos hb]
      · rw [if_neg hb]
        exact List.mem_append.mpr (Or.inr (List.mem_singleton.mpr rfl))
    have hc1 : c ∉ acc.map Prod.fst := fun hmem => hc (hsup c hmem)
    have hcb : ¬ (b = c) := fun hbc => hc (hbc ▸ hbmem)
    rw [if_neg hcb, h0 c hc1, add_zero]

theorem accum_values (t2a : List (Int × String)) :
    ∀ (edges : List (Int × Int × ℚ)) (acc : List (String × ℚ))
      (C : String → ℚ),
      (∀ p ∈ acc, p.2 = C p.1) →
      (∀ c, c ∉ acc.map Prod.fst → C c = 0) →
      ∀ p ∈ edges.foldl
          (fun acc e => addScore acc (bucketOf t2a e.2.1) e.2.2) acc,
        p.2 = C p.1 + edgeScore edges t2a p.1 := by
  intro edges
  induction edges with
  | nil =>
    intro acc C hC h0 p hp
    rw [List.foldl_nil] at hp
    have : edgeScore [] t2a p.1 = 0 := rfl
    rw [this, add_zero]
    exact hC p hp
  | cons e es ih =>
    intro acc C hC h0 p hp
    rw [List.foldl_cons] at hp
    obtain ⟨key, key0⟩ := addScore_spec acc (bucketOf t2a e.2.1) e.2.2 C hC h0
    have hres := ih (addScore acc (bucketOf t2a e.2.1) e.2.2)
      (fun a => C a + if bucketOf t2a e.2.1 = a then e.2.2 else 0) key key0 p hp
    have hsc : edgeScore (e :: es) t2a p.1 =
        (if bucketOf t2a e.2.1 = p.1 then e.2.2 else 0) + edgeScore es t2a p.1 := by
      unfold edgeScore
      rw [List.filter_cons]
      by_cases hb : bucketOf t2a e.2.1 = p.1 <;> simp [hb]
    rw [hres, hsc]
    ring

theorem accum_keys (t2a : List (Int × String)) :
    ∀ (edges : List (Int × Int × ℚ)) (acc : List (String × ℚ)),
      (edges.foldl (fun acc e => addScore acc (bucketOf t2a e.2.1) e.2.2) acc).map
          Prod.fst =
        (edges.map (fun e => bucketOf t2a e.2.1)).foldl
          (fun ks a => if a ∈ ks then ks else ks ++ [a]) (acc.map Prod.fst) := by
  intro edges
  induction edges with
  | nil => intro acc; rfl
  | cons e es ih =>
    intro acc
    rw [List.foldl_cons, List.map_cons, List.foldl_cons, ih, addScore_keys]

theorem firstSeen_foldl_mem {α : Type} [DecidableEq α] :
    ∀ (l acc : List α) (a : α),
      (a ∈ l.foldl (fun ks x => if x ∈ ks then ks else ks ++ [x]) acc) ↔
        (a ∈ acc ∨ a ∈ l) := by
  intro l
  induction l with
  | nil => simp
  | cons x xs ih =>
    intro acc a
    rw [List.foldl_cons, ih]
    by_cases hx : x ∈ acc
    · rw [if_pos hx]
      constructor
      · intro h
        rcases h with h | h
        · exact Or.inl h
        · exact Or.inr (List.mem_cons_of_mem x h)
      · intro h
        rcases h with h | h
        · exact Or.inl h
        · rcases List.mem_cons.mp h with rfl | h
          · exact Or.inl hx
          · exact Or.inr h
    · rw [if_neg hx]
      constructor
      · intro h
        rcases h with h | h
        · rcases List.mem_append.mp h with h | h
          · exact Or.inl h
          · rw [List.mem_singleton.mp h]
            exact Or.inr (List.mem_cons_self x xs)
        · exact Or.inr (List.mem_cons_of_mem x h)
      · intro h
        rcases h with h | h
        · exact Or.inl (List.mem_append.mpr (Or.inl h))
        · rcases List.mem_cons.mp h with rfl | h
          · exact Or.inl (List.mem_append.mpr (Or.inr (List.mem_singleton.mpr rfl)))
          · exact Or.inr h

theorem firstSeen_foldl_nodup {α : Type} [DecidableEq α] :
    ∀ (l acc : List α), acc.Nodup →
      (l.foldl (fun ks x => if x ∈ ks then ks else ks ++ [x]) acc).Nodup := by
  intro l
  induction l with
  | nil => intro acc h; exact h
  | cons x xs ih =>
    intro acc h
    rw [List.foldl_cons]
    by_cases hx : x ∈ acc
    · rw [if_pos hx]
      exact ih acc h
    · rw [if_neg hx]
      refine ih _ ?_
      rw [← List.concat_eq_append]
      exact List.Nodup.concat hx h

theorem mem_firstSeen {α : Type} [DecidableEq α] (l : List α) (a : α) :
    a ∈ firstSeen l ↔ a ∈ l := by
  unfold firstSeen
  rw [firstSeen_foldl_mem]
  simp

theorem firstSeen_nodup {α : Type} [DecidableEq α] (l : List α) :
    (firstSeen l).Nodup := by
  unfold firstSeen
  exact firstSeen_foldl_nodup l [] List.nodup_nil

/-- Claim C3: `compute_leaderboard` returns exactly one entry per distinct
artist bucket of the weighted edges (keys without duplicates, key membership
coinciding with bucket membership); each artist's score is the sum of the
weights of the weighted edges attributed to it; the list is sorted
descending by score; entries of equal score appear in the order the
accumulation dict first encountered their artists (the sort is stable over
the accumulation list, whose keys are in first-encounter order); and the
function is pure, so two calls on the same graph return identical lists. -/
theorem claim_C3 (g : Graph) :
    compute_leaderboard g = compute_leaderboard g ∧
    ((compute_leaderboard g).map Prod.fst).Nodup ∧
    (∀ a : String, a ∈ (compute_leaderboard g).map Prod.fst ↔
      a ∈ g.weighted_edges.map (fun e => bucketOf g.track_to_artist e.2.1)) ∧
    (∀ p ∈ compute_leaderboard g,
      p.2 = edgeScore g.weighted_edges g.track_to_artist p.1) ∧
    (compute_leaderboard g).Pairwise (fun a b => b.2 ≤ a.2) ∧
    (∀ q : ℚ, (compute_leaderboard g).filter (fun p => decide (p.2 = q)) =
      (accumScores g.weighted_edges g.track_to_artist).filter
        (fun p => decide (p.2 = q))) ∧
    (accumScores g.weighted_edges g.track_to_artist).map Prod.fst =
      firstSeen (g.weighted_edges.map (fun e => bucketOf g.track_to_artist e.2.1)) := by
  have hperm : List.Perm (compute_leaderboard g)
      (accumScores g.weighted_edges g.track_to_artist) :=
    List.perm_insertionSort scoreGe _
  have hkeys : (accumScores g.weighted_edges g.track_to_artist).map Prod.fst =
      firstSeen (g.weighted_edges.map (fun e => bucketOf g.track_to_artist e.2.1)) := by
    unfold accumScores firstSeen
    rw [accum_keys]
    rfl
  refine ⟨rfl, ?_, ?_, ?_, ?_, ?_, hkeys⟩
  · rw [(hperm.map Prod.fst).nodup_iff, hkeys]
    exact firstSeen_nodup _
  · intro a
    rw [(hperm.map Prod.fst).mem_iff, hkeys, mem_firstSeen]
  · intro p hp
    have hp' : p ∈ accumScores g.weighted_edges g.track_to_artist :=
      hperm.subset hp
    have := accum_values g.track_to_artist g.weighted_edges []
      (fun _ => 0) (by intro p hp; cases hp) (fun _ _ => rfl) p hp'
    rw [this, zero_add]
  · exact List.sorted_insertionSort scoreGe _
  · intro q
    exact filter_insertionSort_score q _

/-- Witness for C3 at a concrete three-edge graph over artists "A" and
"B". -/
theorem claim_C3_witness :
    ("A" ∈ (compute_leaderboard gW3).map Prod.fst ↔
      "A" ∈ gW3.weighted_edges.map (fun e => bucketOf gW3.track_to_artist e.2.1)) ∧
    (compute_leaderboard gW3).Pairwise (fun a b => b.2 ≤ a.2) ∧
    (∀ p ∈ compute_leaderboard gW3,
      p.2 = edgeScore gW3.weighted_edges gW3.track_to_artist p.1) :=
  ⟨(claim_C3 gW3).2.2.1 "A", (claim_C3 gW3).2.2.2.2.1, (claim_C3 gW3).2.2.2.1⟩

/-! ### Claims C1/C4/C9: preprocessing lemmas -/

theorem groupByUser_spec :
    ∀ l : List Row2,
      (groupByUser l).flatten = l ∧
      (∀ g ∈ groupByUser l, g ≠ []) ∧
      (∀ g ∈ groupByUser l, ∀ x ∈ g, x.user_id = headUserId g) := by
  intro l
  induction l with
  | nil =>
    refine ⟨rfl, ?_, ?_⟩
    · intro g hg
      cases hg
    · intro g hg
      cases hg
  | cons r rs ih =>
    obtain ⟨hj, hne, hh⟩ := ih
    rcases hgb : groupByUser rs with _ | ⟨g, gs⟩
    · have hgb2 : groupByUser (r :: rs) = [[r]] := by
        simp only [groupByUser, hgb]
      have hrs : rs = [] := by
        rw [hgb] at hj
        simpa using hj.symm
      refine ⟨by rw [hgb2, hrs]; rfl, ?_, ?_⟩
      · intro g hg
        rw [hgb2] at hg
        rcases List.mem_singleton.mp hg with rfl
        exact List.cons_ne_nil r []
      · intro g hg x hx
        rw [hgb2] at hg
        rcases List.mem_singleton.mp hg with rfl
        rcases List.mem_singleton.mp hx with rfl
        rfl
    · have hgne : g ≠ [] := hne g (hgb ▸ List.mem_cons_self g gs)
      rcases g with _ | ⟨x, g'⟩
      · exact absurd rfl hgne
      rw [hgb] at hj hh
      by_cases hru : (r.user_id == x.user_id) = true
      · have hgb2 : groupByUser (r :: rs) = (r :: x :: g') :: gs := by
          simp only [groupByUser, hgb]
          rw [if_pos hru]
        refine ⟨?_, ?_, ?_⟩
        · rw [hgb2]
          simp only [List.flatten_cons] at hj ⊢
          rw [List.cons_append, hj]
        · intro h hg
          rw [hgb2] at hg
          rcases List.mem_cons.mp hg with rfl | hg
          · exact List.cons_ne_nil _ _
          · exact hne h (hgb ▸ List.mem_cons_of_mem _ hg)
        · intro h hg y hy
          rw [hgb2] at hg
          rcases List.mem_cons.mp hg with rfl | hg
          · show y.user_id = r.user_id
            rcases List.mem_cons.mp hy with rfl | hy
            · rfl
            · have h1 : y.user_id = headUserId (x :: g') :=
                hh (x :: g') (List.mem_cons_self _ _) y hy
              have h2 : r.user_id = x.user_id := beq_iff_eq.mp hru
              rw [h1]
              exact h2.symm
          · exact hh h (hgb ▸ List.mem_cons_of_mem _ hg) y hy
      · have hgb2 : groupByUser (r :: rs) = [r] :: (x :: g') :: gs := by
          simp only [groupByUser, hgb]
          rw [if_neg hru]
        refine ⟨?_, ?_, ?_⟩
        · rw [hgb2]
          simp only [List.flatten_cons] at hj ⊢
          rw [hj]
          rfl
        · intro h hg
          rw [hgb2] at hg
          rcases List.mem_cons.mp hg with rfl | hg
          · exact List.cons_ne_nil _ _
          · exact hne h (hgb ▸ hg)
        · intro h hg y hy
          rw [hgb2] at hg
          rcases List.mem_cons.mp hg with rfl | hg
          · rcases List.mem_singleton.mp hy with rfl
            rfl
          · exact hh h (hgb ▸ hg) y hy

theorem groupByUser_chain :
    ∀ l : List Row2, l.Pairwise rowLe →
      List.Chain' (fun g h => headUserId g < headUserId h) (groupByUser l) := by
  intro l
  induction l with
  | nil => intro _; exact List.chain'_nil
  | cons r rs ih =>
    intro hp
    obtain ⟨hr, hp'⟩ := List.pairwise_cons.mp hp
    have hch := ih hp'
    obtain ⟨hj, hne, _⟩ := groupByUser_spec rs
    rcases hgb : groupByUser rs with _ | ⟨g, gs⟩
    · have hgb2 : groupByUser (r :: rs) = [[r]] := by
        simp only [groupByUser, hgb]
      rw [hgb2]
      exact List.chain'_singleton _
    · have hgne : g ≠ [] := hne g (hgb ▸ List.mem_cons_self g gs)
      rcases g with _ | ⟨x, g'⟩
      · exact absurd rfl hgne
      rw [hgb] at hch
      by_cases hru : (r.user_id == x.user_id) = true
      · have hgb2 : groupByUser (r :: rs) = (r :: x :: g') :: gs := by
          simp only [groupByUser, hgb]
          rw [if_pos hru]
        rw [hgb2]
        have he : headUserId (r :: x :: g') = headUserId (x :: g') :=
          beq_iff_eq.mp hru
        rcases gs with _ | ⟨h2, gs'⟩
        · exact List.chain'_singleton _
        · rw [List.chain'_cons] at hch ⊢
          exact ⟨he ▸ hch.1, hch.2⟩
      · have hgb2 : groupByUser (r :: rs) = [r] :: (x :: g') :: gs := by
          simp only [groupByUser, hgb]
          rw [if_neg hru]
        rw [hgb2, List.chain'_cons]
        refine ⟨?_, hch⟩
        have hxrs : x ∈ rs := by
          rw [← hj, hgb]
          exact List.mem_flatten.mpr ⟨x :: g', List.mem_cons_self _ _,
            List.mem_cons_self _ _⟩
        have hle : rowLe r x := hr x hxrs
        have hne' : r.user_id ≠ x.user_id := by
          intro he
          exact hru (beq_iff_eq.mpr he)
        show r.user_id < x.user_id
        rcases hle with h | ⟨he, _⟩
        · exact h
        · exact absurd he hne'

theorem sessGo_map_row :
    ∀ (rs : List Row2) (pts : Int) (sid : Nat),
      (sessGo pts sid rs).map (fun p => p.toRow2) = rs := by
  intro rs
  induction rs with
  | nil => intro pts sid; rfl
  | cons r rs' ih =>
    intro pts sid
    simp only [sessGo, List.map_cons]
    rw [ih]

theorem sessionScan1_map_row (g : List Row2) :
    (sessionScan1 g).map (fun p => p.toRow2) = g := by
  cases g with
  | nil => rfl
  | cons r rs =>
    simp only [sessionScan1, List.map_cons]
    rw [sessGo_map_row]

theorem sessGo_chain :
    ∀ (rs : List Row2) (pts : Int) (sid : Nat) (a : PRow),
      a.timestamp = pts → a.session_id = sid →
      List.Chain' adjSession (a :: sessGo pts sid rs) := by
  intro rs
  induction rs with
  | nil => intro pts sid a _ _; exact List.chain'_singleton _
  | cons r rs' ih =>
    intro pts sid a hts hsid
    subst hts
    subst hsid
    simp only [sessGo]
    rw [List.chain'_cons]
    constructor
    · refine ⟨?_, ?_, ?_⟩
      · intro hgap
        replace hgap : r.timestamp - a.timestamp ≤ 300 := hgap
        show (if 300 < r.timestamp - a.timestamp then a.session_id + 1
          else a.session_id) = a.session_id
        rw [if_neg (by omega)]
      · intro hgap
        replace hgap : 300 < r.timestamp - a.timestamp := hgap
        show (if 300 < r.timestamp - a.timestamp then a.session_id + 1
          else a.session_id) = a.session_id + 1
        rw [if_pos hgap]
      · show a.session_id ≤ (if 300 < r.timestamp - a.timestamp then
          a.session_id + 1 else a.session_id)
        by_cases hgap : 300 < r.timestamp - a.timestamp
        · rw [if_pos hgap]
          omega
        · rw [if_neg hgap]
    · exact ih r.timestamp _ _ rfl rfl

theorem sessionScan1_chain (g : List Row2) :
    List.Chain' adjSession (sessionScan1 g) := by
  cases g with
  | nil => exact List.chain'_nil
  | cons r rs => exact sessGo_chain rs r.timestamp 0 _ rfl rfl

theorem sessionScan1_head (g : List Row2) (p : PRow)
    (h : (sessionScan1 g).head? = some p) : p.session_id = 0 := by
  cases g with
  | nil => cases h
  | cons r rs =>
    simp only [sessionScan1, List.head?_cons, Option.some.injEq] at h
    rw [← h]

theorem sessionize_map_row (l : List Row2) :
    (sessionize l).map (fun p => p.toRow2) = List.insertionSort rowLe l := by
  unfold sessionize
  rw [List.map_flatten, List.map_map]
  have h1 : ((groupByUser (List.insertionSort rowLe l)).map
      ((List.map fun p => p.toRow2) ∘ sessionScan1)) =
      (groupByUser (List.insertionSort rowLe l)).map id := by
    apply List.map_congr_left
    intro g _
    exact sessionScan1_map_row g
  rw [h1, List.map_id]
  exact (groupByUser_spec _).1

theorem mem_sessionize_toRow2 (l : List Row2) (p : PRow)
    (hp : p ∈ sessionize l) : p.toRow2 ∈ l := by
  have h : p.toRow2 ∈ (sessionize l).map (fun p => p.toRow2) :=
    List.mem_map_of_mem _ hp
  rw [sessionize_map_row] at h
  exact (List.perm_insertionSort rowLe l).subset h

theorem sessionScan1_user (g : List Row2) (u : Int)
    (hg : ∀ x ∈ g, x.user_id = u) :
    ∀ p ∈ sessionScan1 g, p.user_id = u := by
  intro p hp
  have h : p.toRow2 ∈ (sessionScan1 g).map (fun p => p.toRow2) :=
    List.mem_map_of_mem _ hp
  rw [sessionScan1_map_row] at h
  exact hg _ h

theorem filter_flatten_groups (u : Int) :
    ∀ G : List (List Row2),
      (∀ g ∈ G, g ≠ []) →
      (∀ g ∈ G, ∀ x ∈ g, x.user_id = headUserId g) →
      List.Pairwise (fun g h => headUserId g ≠ headUserId h) G →
      (((G.map sessionScan1).flatten.filter (fun p => p.user_id == u)) = [] ∨
        ∃ g ∈ G, (((G.map sessionScan1).flatten.filter
            (fun p => p.user_id == u)) = sessionScan1 g ∧
          ∀ x ∈ g, x.user_id = u)) := by
  intro G
  induction G with
  | nil =>
    intro _ _ _
    left
    rfl
  | cons g G' ih =>
    intro hne hh hpw
    obtain ⟨hg1, hpw'⟩ := List.pairwise_cons.mp hpw
    have hrest := ih (fun h hm => hne h (List.mem_cons_of_mem g hm))
      (fun h hm => hh h (List.mem_cons_of_mem g hm)) hpw'
    rw [List.map_cons, List.flatten_cons, List.filter_append]
    by_cases hu : headUserId g = u
    · right
      refine ⟨g, List.mem_cons_self g G', ?_, ?_⟩
      · have h1 : (sessionScan1 g).filter (fun p => p.user_id == u) =
            sessionScan1 g := by
          rw [List.filter_eq_self]
          intro p hp
          have : p.user_id = headUserId g :=
            sessionScan1_user g (headUserId g)
              (hh g (List.mem_cons_self g G')) p hp
          rw [this, hu]
          exact beq_self_eq_true u
        have h2 : ((G'.map sessionScan1).flatten.filter
            (fun p => p.user_id == u)) = [] := by
          rw [List.filter_eq_nil_iff]
          intro p hp
          obtain ⟨lg, hlg, hplg⟩ := List.mem_flatten.mp hp
          obtain ⟨g', hg', rfl⟩ := List.mem_map.mp hlg
          have hpu : p.user_id = headUserId g' :=
            sessionScan1_user g' (headUserId g')
              (hh g' (List.mem_cons_of_mem g hg')) p hplg
          have hneq : headUserId g ≠ headUserId g' := hg1 g' hg'
          rw [hpu]
          intro hbe
          exact hneq (hu.symm ▸ (beq_iff_eq.mp hbe) ▸ rfl)
        rw [h1, h2, List.append_nil]
      · intro x hx
        rw [hh g (List.mem_cons_self g G') x hx, hu]
    · have h1 : (sessionScan1 g).filter (fun p => p.user_id == u) = [] := by
        rw [List.filter_eq_nil_iff]
        intro p hp
        have : p.user_id = headUserId g :=
          sessionScan1_user g (headUserId g)
            (hh g (List.mem_cons_self g G')) p hp
        rw [this]
        intro hbe
        exact hu (beq_iff_eq.mp hbe)
      rw [h1, List.nil_append]
      rcases hrest with h | ⟨g', hg', he, hx⟩
      · left
        exact h
      · right
        exact ⟨g', List.mem_cons_of_mem g hg', he, hx⟩

theorem group_ts_sorted (l : List Row2) (g : List Row2)
    (hg : g ∈ groupByUser (List.insertionSort rowLe l)) :
    g.Pairwise (fun a b => a.timestamp ≤ b.timestamp) := by
  have hs : (List.insertionSort rowLe l).Pairwise rowLe :=
    List.sorted_insertionSort rowLe l
  have hsub := List.sublist_join hg
  rw [(groupByUser_spec _).1] at hsub
  have hpl : g.Pairwise rowLe := hs.sublist hsub
  have hh := (groupByUser_spec (List.insertionSort rowLe l)).2.2 g hg
  refine hpl.imp_of_mem ?_
  intro a b ha hb hab
  rcases hab with h | ⟨he, ht⟩
  · rw [hh a ha, hh b hb] at h
    exact absurd h (lt_irrefl _)
  · exact ht

theorem sessionize_sessionProperty (l : List Row2) :
    sessionProperty (sessionize l) := by
  intro u
  have hsorted : (List.insertionSort rowLe l).Pairwise rowLe :=
    List.sorted_insertionSort rowLe l
  obtain ⟨hj, hne, hh⟩ := groupByUser_spec (List.insertionSort rowLe l)
  have hchain := groupByUser_chain _ hsorted
  have hpw : List.Pairwise (fun g h => headUserId g ≠ headUserId h)
      (groupByUser (List.insertionSort rowLe l)) := by
    haveI : IsTrans (List Row2) (fun g h => headUserId g < headUserId h) :=
      ⟨fun _ _ _ hab hbc => lt_trans hab hbc⟩
    have := List.chain'_iff_pairwise.mp hchain
    exact this.imp (fun h => ne_of_lt h)
  rcases filter_flatten_groups u _ hne hh hpw with hcase | ⟨g, hg, hcase, hxu⟩
  · have he : userRows (sessionize l) u = [] := hcase
    refine ⟨?_, ?_, ?_, ?_⟩
    · intro p hp
      rw [he] at hp
      exact Option.noConfusion hp
    · rw [he]
      exact List.chain'_nil
    · rw [he]
      exact List.Pairwise.nil
    · rw [he]
      exact List.Pairwise.nil
  · have he : userRows (sessionize l) u = sessionScan1 g := hcase
    refine ⟨?_, ?_, ?_, ?_⟩
    · intro p hp
      rw [he] at hp
      exact sessionScan1_head g p hp
    · rw [he]
      exact sessionScan1_chain g
    · rw [he]
      have hch : List.Chain' (fun a b : PRow => a.session_id ≤ b.session_id)
          (sessionScan1 g) :=
        (sessionScan1_chain g).imp (fun a b hab => hab.2.2)
      haveI : IsTrans PRow (fun a b => a.session_id ≤ b.session_id) :=
        ⟨fun _ _ _ hab hbc => le_trans hab hbc⟩
      exact List.chain'_iff_pairwise.mp hch
    · rw [he]
      have hts : g.Pairwise (fun a b => a.timestamp ≤ b.timestamp) :=
        group_ts_sorted l g hg
      rw [← sessionScan1_map_row g] at hts
      have h2 := List.pairwise_map.mp hts
      exact h2

/-! ### Claim C1 -/

/-- Claim C1: for every user of a processed table (from either copy of
`preprocess_data`), that user's rows appear in ascending timestamp order,
the first row has session id 0, consecutive rows with a gap of at most 300
seconds share a session id, a gap above 300 seconds increments it by exactly
one, and session ids never decrease along the sequence (`sessionProperty`
bundles exactly these conditions via `adjSession`). -/
theorem claim_C1 :
    (∀ raw df, Pipeline.preprocess_data raw = Except.ok df →
      sessionProperty df) ∧
    (∀ raw, sessionProperty (App.preprocess_data raw)) := by
  constructor
  · intro raw df h
    simp only [Pipeline.preprocess_data] at h
    split at h
    · rw [← Except.ok.inj h]
      exact sessionize_sessionProperty _
    · exact absurd h (by simp)
  · intro raw
    unfold App.preprocess_data
    exact sessionize_sessionProperty _

/-- Witness for C1: the concrete run `rawP` succeeds (two events of user 3
with a 400-second gap produce session ids 0 and 1) and the session property
holds of its output. -/
theorem claim_C1_witness :
    Pipeline.preprocess_data rawP = Except.ok dfP ∧ sessionProperty dfP :=
  ⟨by decide, claim_C1.1 rawP dfP (by decide)⟩

/-! ### Claim C4 -/

/-- Claim C4, amended: in the src/pipeline.py copy of `preprocess_data`,
every returned row has a non-null artist value (rows whose track has no
metadata match are backfilled with "Unknown Artist"); the src/app.py copy
has no such backfill and leaves the artist null (see the
counterexample). -/
theorem claim_C4 (raw : RawData) (df : List PRow)
    (h : Pipeline.preprocess_data raw = Except.ok df) :
    ∀ p ∈ df, p.artists.isSome = true := by
  simp only [Pipeline.preprocess_data] at h
  split at h
  · rw [← Except.ok.inj h]
    intro p hp
    have hr := mem_sessionize_toRow2 _ _ hp
    obtain ⟨r, hrm, hre⟩ := List.mem_map.mp hr
    rw [← hre]
    rfl
  · exact absurd h (by simp)

/-- Counterexample to claim C4 as stated of the src/app.py copy: on `rawP`,
whose second interaction references track 2 with no metadata row, the
returned table carries a null artist in its second row. -/
theorem claim_C4_cx :
    (App.preprocess_data rawP).map (fun p => p.artists) = [some "A", none] ∧
    ¬ ∀ p ∈ App.preprocess_data rawP, p.artists.isSome = true :=
  ⟨by decide, by decide⟩

/-- Witness for C4 on the concrete run `rawP`. -/
theorem claim_C4_witness :
    Pipeline.preprocess_data rawP = Except.ok dfP ∧
    ∀ p ∈ dfP, p.artists.isSome = true :=
  ⟨by decide, fun p hp => claim_C4 rawP dfP (by decide) p hp⟩

/-! ### Claim C9: context-join lemmas -/

theorem mem_ctxCandidates (i : Interaction) (ctx : List ContextRecord)
    (c : ContextRecord) :
    c ∈ ctxCandidates i ctx ↔
      c ∈ ctx ∧ c.user_id = i.user_id ∧ ctxDist i c ≤ 60 := by
  unfold ctxCandidates
  rw [List.mem_filter]
  constructor
  · rintro ⟨h1, h2⟩
    rw [Bool.and_eq_true] at h2
    exact ⟨h1, beq_iff_eq.mp h2.1, of_decide_eq_true h2.2⟩
  · rintro ⟨h1, h2, h3⟩
    refine ⟨h1, ?_⟩
    rw [Bool.and_eq_true]
    exact ⟨beq_iff_eq.mpr h2, decide_eq_true h3⟩

theorem bestContext_fold_some (i : Interaction) :
    ∀ (cands : List ContextRecord) (b : ContextRecord),
      ∃ c, cands.foldl (bestStep i) (some b) = some c ∧
        c ∈ b :: cands ∧ ∀ x ∈ b :: cands, ctxDist i c ≤ ctxDist i x := by
  intro cands
  induction cands with
  | nil =>
    intro b
    refine ⟨b, rfl, List.mem_singleton.mpr rfl, ?_⟩
    intro x hx
    rw [List.mem_singleton.mp hx]
  | cons d rest ih =>
    intro b
    rw [List.foldl_cons]
    have hstep : bestStep i (some b) d =
        if betterCtx i b d then some d else some b := rfl
    by_cases hbd : betterCtx i b d = true
    · rw [hstep, if_pos hbd]
      have hdb : ctxDist i d ≤ ctxDist i b := by
        unfold betterCtx at hbd
        rw [Bool.or_eq_true] at hbd
        rcases hbd with hlt | hand
        · exact le_of_lt (of_decide_eq_true hlt)
        · rw [Bool.and_eq_true] at hand
          exact le_of_eq (of_decide_eq_true hand.1)
      obtain ⟨c, hc, hmem, hmin⟩ := ih d
      refine ⟨c, hc, List.mem_cons_of_mem b hmem, ?_⟩
      intro x hx
      rcases List.mem_cons.mp hx with hxb | hx'
      · rw [hxb]
        exact le_trans (hmin d (List.mem_cons_self d rest)) hdb
      · exact hmin x hx'
    · rw [hstep, if_neg hbd]
      have hbd' : ctxDist i b ≤ ctxDist i d := by
        unfold betterCtx at hbd
        have h1 : ¬ ctxDist i d < ctxDist i b := by
          intro hlt
          exact hbd (by rw [Bool.or_eq_true]; exact Or.inl (decide_eq_true hlt))
        omega
      obtain ⟨c, hc, hmem, hmin⟩ := ih b
      refine ⟨c, hc, ?_, ?_⟩
      · rcases List.mem_cons.mp hmem with hcb | hcr
        · rw [hcb]
          exact List.mem_cons_self b (d :: rest)
        · exact List.mem_cons_of_mem b (List.mem_cons_of_mem d hcr)
      · intro x hx
        rcases List.mem_cons.mp hx with hxb | hx'
        · rw [hxb]
          exact hmin b (List.mem_cons_self b rest)
        · rcases List.mem_cons.mp hx' with hxd | hxr
          · rw [hxd]
            exact le_trans (hmin b (List.mem_cons_self b rest)) hbd'
          · exact hmin x (List.mem_cons_of_mem b hxr)

theorem bestContext_spec (i : Interaction) (ctx : List ContextRecord) :
    (bestContext i ctx = none ↔
      ∀ c ∈ ctx, c.user_id = i.user_id → ¬ (ctxDist i c ≤ 60)) ∧
    (∀ c, bestContext i ctx = some c →
      c ∈ ctx ∧ c.user_id = i.user_id ∧ ctxDist i c ≤ 60 ∧
      ∀ c' ∈ ctx, c'.user_id = i.user_id → ctxDist i c ≤ ctxDist i c') := by
  constructor
  · constructor
    · intro hnone c hcc hcu hcd
      have hmem : c ∈ ctxCandidates i ctx :=
        (mem_ctxCandidates i ctx c).mpr ⟨hcc, hcu, hcd⟩
      rcases hcands : ctxCandidates i ctx with _ | ⟨d, rest⟩
      · rw [hcands] at hmem
        cases hmem
      · unfold bestContext at hnone
        rw [hcands, List.foldl_cons] at hnone
        obtain ⟨c', hc', _, _⟩ := bestContext_fold_some i rest d
        have : rest.foldl (bestStep i) (some d) = none := hnone
        rw [hc'] at this
        cases this
    · intro hnil
      have hempty : ctxCandidates i ctx = [] := by
        rcases hcands : ctxCandidates i ctx with _ | ⟨d, rest⟩
        · rfl
        · have hd : d ∈ ctxCandidates i ctx := by
            rw [hcands]
            exact List.mem_cons_self d rest
          obtain ⟨h1, h2, h3⟩ := (mem_ctxCandidates i ctx d).mp hd
          exact absurd h3 (hnil d h1 h2)
      unfold bestContext
      rw [hempty]
      rfl
  · intro c hsome
    rcases hcands : ctxCandidates i ctx with _ | ⟨d, rest⟩
    · unfold bestContext at hsome
      rw [hcands] at hsome
      cases hsome
    · unfold bestContext at hsome
      rw [hcands, List.foldl_cons] at hsome
      obtain ⟨c', hc', hmem, hmin⟩ := bestContext_fold_some i rest d
      have heq : rest.foldl (bestStep i) (some d) = some c := hsome
      rw [hc'] at heq
      have hcc : c' = c := Option.some.inj heq
      subst hcc
      have hcand : c' ∈ ctxCandidates i ctx := by
        rw [hcands]
        exact hmem
      obtain ⟨h1, h2, h3⟩ := (mem_ctxCandidates i ctx c').mp hcand
      refine ⟨h1, h2, h3, ?_⟩
      intro e he heu
      by_cases hed : ctxDist i e ≤ 60
      · have hec : e ∈ ctxCandidates i ctx :=
          (mem_ctxCandidates i ctx e).mpr ⟨he, heu, hed⟩
        rw [hcands] at hec
        exact hmin e hec
      · omega

theorem mem_trackKeys (tracks : List MTrack) (k : Int) :
    k ∈ trackKeys tracks ↔ ∃ t ∈ tracks, t.tid = Sum.inl k := by
  unfold trackKeys
  rw [List.mem_filterMap]
  constructor
  · rintro ⟨t, ht, he⟩
    refine ⟨t, ht, ?_⟩
    rcases htid : t.tid with n | s <;> rw [htid] at he
    · simp only [Option.some.injEq] at he
      rw [he]
    · cases he
  · rintro ⟨t, ht, he⟩
    exact ⟨t, ht, by rw [he]⟩

theorem filter_tid_le_one (tracks : List MTrack)
    (h : (trackKeys tracks).Nodup) (k : Int) :
    (tracks.filter (fun t => tidMatches t k)).length ≤ 1 := by
  induction tracks with
  | nil => simp
  | cons t ts ih =>
    rw [List.filter_cons]
    rcases htid : t.tid with n | s
    · have hkeys : trackKeys (t :: ts) = n :: trackKeys ts := by
        unfold trackKeys
        rw [List.filterMap_cons, htid]
      rw [hkeys] at h
      obtain ⟨hn, h'⟩ := List.nodup_cons.mp h
      by_cases hm : tidMatches t k = true
      · have hnk : n = k := by
          unfold tidMatches at hm
          rw [htid] at hm
          exact beq_iff_eq.mp hm
        rw [if_pos hm]
        have hrest : ts.filter (fun t => tidMatches t k) = [] := by
          rw [List.filter_eq_nil_iff]
          intro t' ht' hm'
          have htid' : t'.tid = Sum.inl k := by
            unfold tidMatches at hm'
            rcases htid2 : t'.tid with n' | s' <;> rw [htid2] at hm'
            · rw [beq_iff_eq.mp hm']
            · cases hm'
          have : k ∈ trackKeys ts := (mem_trackKeys ts k).mpr ⟨t', ht', htid'⟩
          rw [← hnk] at this
          exact hn this
        rw [hrest]
        simp
      · rw [if_neg hm]
        exact ih h'
    · have hkeys : trackKeys (t :: ts) = trackKeys ts := by
        unfold trackKeys
        rw [List.filterMap_cons, htid]
      rw [hkeys] at h
      have hm : tidMatches t k = false := by
        unfold tidMatches
        rw [htid]
      rw [if_neg (by simp [hm])]
      exact ih h

theorem leftMergeTracks_toMergedRow (rows : List MergedRow)
    (tracks : List MTrack) (h : (trackKeys tracks).Nodup) :
    (leftMergeTracks rows tracks).map (fun r => r.toMergedRow) = rows := by
  induction rows with
  | nil => rfl
  | cons r rs ih =>
    unfold leftMergeTracks at ih ⊢
    rw [List.flatMap_cons, List.map_append, ih]
    rcases hf : tracks.filter (fun t => tidMatches t r.track_id) with _ | ⟨t, ts'⟩
    · rfl
    · have hlen := filter_tid_le_one tracks h r.track_id
      rw [hf] at hlen
      have hts' : ts' = [] := by
        cases ts' with
        | nil => rfl
        | cons a b =>
          simp only [List.length_cons] at hlen
          omega
      subst hts'
      rfl

theorem leftMergeTracks_mem (rows : List MergedRow) (tracks : List MTrack)
    (r2 : Row2) (h : r2 ∈ leftMergeTracks rows tracks) :
    r2.toMergedRow ∈ rows := by
  unfold leftMergeTracks at h
  obtain ⟨r, hr, hmem⟩ := List.mem_flatMap.mp h
  rcases hf : tracks.filter (fun t => tidMatches t r.track_id) with _ | ⟨t, ts'⟩
  · rw [hf] at hmem
    rw [List.mem_singleton.mp hmem]
    exact hr
  · rw [hf] at hmem
    obtain ⟨t', ht', he⟩ := List.mem_map.mp hmem
    rw [← he]
    exact hr

theorem fillna_rowInteraction (l : List Row2) :
    (fillnaArtists l).map rowInteraction = l.map rowInteraction := by
  unfold fillnaArtists
  rw [List.map_map]
  exact List.map_congr_left (fun r _ => rfl)

theorem leftMergeTracks_rowInteraction (l : List MergedRow)
    (tracks : List MTrack) (h : (trackKeys tracks).Nodup) :
    (leftMergeTracks l tracks).map rowInteraction = l.map mergedInteraction := by
  have e1 : (leftMergeTracks l tracks).map rowInteraction =
      ((leftMergeTracks l tracks).map (fun r => r.toMergedRow)).map
        mergedInteraction := by
    rw [List.map_map]
    exact List.map_congr_left (fun r _ => rfl)
  rw [e1, leftMergeTracks_toMergedRow l tracks h]

theorem merged_map_interaction (inter : List Interaction)
    (ctx : List ContextRecord) :
    ((inter.map (fun i => mkMergedRow i (bestContext i ctx))).map
      mergedInteraction) = inter := by
  rw [List.map_map]
  have e : ∀ i ∈ inter,
      (mergedInteraction ∘ (fun i => mkMergedRow i (bestContext i ctx))) i =
        id i := fun i _ => rfl
  rw [List.map_congr_left e, List.map_id]

/-- Claim C9: whenever the src/pipeline.py `preprocess_data` succeeds and the
effective track-metadata keys are unique (the spec's TrackMetadata
invariant), the processed table carries exactly one row per interaction that
survived the missing-value filtering (as a multiset, i.e. a permutation of
the dropna'd interactions); every row's context columns are exactly the
`merge_asof` match of its interaction, where the match is the nearest
same-user context record within the 60-second tolerance and is `none` — null
context columns, the row kept — when no same-user record lies within
tolerance. -/
theorem claim_C9 (raw : RawData) (df : List PRow)
    (h : Pipeline.preprocess_data raw = Except.ok df)
    (huniq : (trackKeys (effTracks (dropnaTracks raw.tracks))).Nodup) :
    List.Perm (df.map interactionOfRow) (dropnaInteractions raw.interactions) ∧
    (∀ p ∈ df, rowContextMatches
      (List.insertionSort ctxTsLe (dropnaContext raw.context)) p) ∧
    (∀ c : ContextRecord,
      c ∈ List.insertionSort ctxTsLe (dropnaContext raw.context) ↔
        c ∈ dropnaContext raw.context) ∧
    (∀ (i : Interaction) (ctx : List ContextRecord),
      (bestContext i ctx = none ↔
        ∀ c ∈ ctx, c.user_id = i.user_id → ¬ (ctxDist i c ≤ 60)) ∧
      (∀ c, bestContext i ctx = some c →
        c ∈ ctx ∧ c.user_id = i.user_id ∧ ctxDist i c ≤ 60 ∧
        ∀ c' ∈ ctx, c'.user_id = i.user_id → ctxDist i c ≤ ctxDist i c')) := by
  simp only [Pipeline.preprocess_data] at h
  split at h
  · rw [← Except.ok.inj h]
    refine ⟨?_, ?_,
      fun c => (List.perm_insertionSort ctxTsLe (dropnaContext raw.context)).mem_iff,
      fun i ctx => bestContext_spec i ctx⟩
    · have step1 : ∀ L : List Row2, (sessionize L).map interactionOfRow =
          ((sessionize L).map (fun p => p.toRow2)).map rowInteraction := by
        intro L
        rw [List.map_map]
        exact List.map_congr_left (fun p _ => rfl)
      rw [step1, sessionize_map_row]
      refine ((List.perm_insertionSort rowLe _).map rowInteraction).trans ?_
      rw [fillna_rowInteraction, leftMergeTracks_rowInteraction _ _ huniq,
        merged_map_interaction]
      exact List.perm_insertionSort tsLe _
    · intro p hp
      have hr2 := mem_sessionize_toRow2 _ _ hp
      obtain ⟨r, hrm, hre⟩ := List.mem_map.mp hr2
      have hmr : p.toRow2.toMergedRow = r.toMergedRow := by
        rw [← hre]
      have hrm2 := leftMergeTracks_mem _ _ r hrm
      obtain ⟨i, him, hie⟩ := List.mem_map.mp hrm2
      have hm' : p.toRow2.toMergedRow = mkMergedRow i
          (bestContext i (List.insertionSort ctxTsLe (dropnaContext raw.context))) := by
        rw [hmr, ← hie]
      have hio : interactionOfRow p = i := by
        show mergedInteraction p.toRow2.toMergedRow = i
        rw [hm']
        rfl
      unfold rowContextMatches
      refine ⟨?_, ?_, ?_⟩
      · show p.toRow2.toMergedRow.mood = _
        rw [hm', hio]
        rfl
      · show p.toRow2.toMergedRow.device = _
        rw [hm', hio]
        rfl
      · show p.toRow2.toMergedRow.location = _
        rw [hm', hio]
        rfl
  · exact absurd h (by simp)

/-- Witness for C9 on the concrete run `rawP`: its two surviving
interactions appear exactly once each; the first is matched to the context
record 30 seconds away, the second (370 seconds from the only record) has
null context columns. -/
theorem claim_C9_witness :
    Pipeline.preprocess_data rawP = Except.ok dfP ∧
    (trackKeys (effTracks (dropnaTracks rawP.tracks))).Nodup ∧
    (List.Perm (dfP.map interactionOfRow) (dropnaInteractions rawP.interactions) ∧
    (∀ p ∈ dfP, rowContextMatches
      (List.insertionSort ctxTsLe (dropnaContext rawP.context)) p) ∧
    (∀ c : ContextRecord,
      c ∈ List.insertionSort ctxTsLe (dropnaContext rawP.context) ↔
        c ∈ dropnaContext rawP.context) ∧
    (∀ (i : Interaction) (ctx : List ContextRecord),
      (bestContext i ctx = none ↔
        ∀ c ∈ ctx, c.user_id = i.user_id → ¬ (ctxDist i c ≤ 60)) ∧
      (∀ c, bestContext i ctx = some c →
        c ∈ ctx ∧ c.user_id = i.user_id ∧ ctxDist i c ≤ 60 ∧
        ∀ c' ∈ ctx, c'.user_id = i.user_id → ctxDist i c ≤ ctxDist i c'))) :=
  ⟨by decide, by decide, claim_C9 rawP dfP (by decide) (by decide)⟩
